import Mathlib

/-!
# Verification of the csim cache simulator (src/csim.c)

A shallow embedding of the cache simulator. The C program keeps, per set, a
singly linked list of lines ordered from least-recently-used (`first_line`)
to most-recently-used (`last_line`); we model a set as a `List Line` whose
head is the LRU end. Machine integers that can go negative (`int E`, the
return value of `miss_type`) are `Int`; addresses, tags and the statistics
counters are `Nat`. The statistics counters in the C code only ever move
away from zero except for `dirty_bytes`, whose single decrement is shown
below (dirty-accounting invariant) never to underflow.
-/

namespace Csim

/-- One cache line (`struct line_s` without the intrusive `next` pointer:
list structure is carried by the enclosing `List`). -/
structure Line where
  dirty_bit : Bool
  valid_bit : Bool
  tag : Nat
deriving DecidableEq

/-- `init_line`: a fresh line for `tag` (valid, clean). -/
def init_line (tag : Nat) : Line :=
  { dirty_bit := false, valid_bit := true, tag := tag }

/-- The `csim_stats_t` record accumulated by `main`. -/
structure Stats where
  hits : Nat
  misses : Nat
  evictions : Nat
  dirty_bytes : Nat
  dirty_evictions : Nat
deriving DecidableEq

def initStats : Stats :=
  { hits := 0, misses := 0, evictions := 0, dirty_bytes := 0, dirty_evictions := 0 }

/-- The scan loop inside `miss_type`: index of the first line whose tag
matches, scanning from the LRU end (`first_line`). -/
def findTag (tag : Nat) : List Line → Option Nat
  | [] => none
  | l :: rest => if l.tag = tag then some 0 else (findTag tag rest).map (· + 1)

/-- `miss_type(set, set_num, tag)`: `-1` for a cold miss (empty set, or tag
absent with `line_count != E`), `-2` for a capacity miss (tag absent and
`line_count == E`), and the position of the matching line on a hit. -/
def miss_type (E : Int) (set : List Line) (tag : Nat) : Int :=
  if set.length = 0 then -1
  else
    match findTag tag set with
    | some i => (i : Int)
    | none => if (set.length : Int) = E then -2 else -1

/-- `get_line(set, pos)`: walk `pos` links from `first_line`. -/
def get_line (set : List Line) (pos : Nat) : Line :=
  set.getD pos (init_line 0)

/-- One iteration of the trace-processing loop in `main`, restricted to a
single set: the three branches on the result of `miss_type` (cold miss:
append a fresh line at the MRU end; capacity miss: drop the LRU head and
append a fresh line; hit: splice the matching line out and re-append it at
the MRU end), together with their statistics updates. -/
def access (E : Int) (total_bytes : Nat) (is_load : Bool) (tag : Nat)
    (set : List Line) (stats : Stats) : List Line × Stats :=
  let t := miss_type E set tag
  if t = -1 then
    let new_line := init_line tag
    let new_line := if is_load then new_line else { new_line with dirty_bit := true }
    (set ++ [new_line],
     { stats with
        misses := stats.misses + 1
        dirty_bytes := stats.dirty_bytes + (if is_load then 0 else total_bytes) })
  else if t = -2 then
    let new_line := init_line tag
    let new_line := if is_load then new_line else { new_line with dirty_bit := true }
    let first_line := set.headD (init_line 0)
    (set.tail ++ [new_line],
     { stats with
        misses := stats.misses + 1
        evictions := stats.evictions + 1
        dirty_evictions :=
          stats.dirty_evictions + (if first_line.dirty_bit then total_bytes else 0)
        dirty_bytes :=
          stats.dirty_bytes - (if first_line.dirty_bit then total_bytes else 0)
            + (if is_load then 0 else total_bytes) })
  else
    let i := t.toNat
    let cur_line := get_line set i
    let newly_dirty := !is_load && !cur_line.dirty_bit
    let cur_line := if newly_dirty then { cur_line with dirty_bit := true } else cur_line
    (set.eraseIdx i ++ [cur_line],
     { stats with
        hits := stats.hits + 1
        dirty_bytes := stats.dirty_bytes + (if newly_dirty then total_bytes else 0) })

/-- Result of `parsing_line` (the fields it writes through out-pointers). -/
structure ParseResult where
  is_load : Bool
  tag : Nat
  set_num : Nat
deriving DecidableEq

/-- `parsing_line`: `is_load` is 1 unless the operation character is `'S'`;
`set_num = (addr >> b) & set_mask`; `tag = (addr >> b) >> s`. -/
def parsing_line (s b set_mask : Nat) (op : Char) (addr : Nat) : ParseResult :=
  let is_load := op != 'S'
  let a := addr >>> b
  { is_load := is_load, set_num := a &&& set_mask, tag := a >>> s }

/-- `pow2(index)`: the C helper computing `2^index` by squaring, written
with C's truncating division and remainder (`Int.tdiv` / `Int.tmod`). -/
def pow2 (index : Int) : Int :=
  if h : index = 0 then 1
  else
    let half_res := pow2 (index.tdiv 2)
    if index.tmod 2 = 0 then half_res * half_res
    else 2 * half_res * half_res
termination_by index.natAbs
decreasing_by
  rw [Int.natAbs_tdiv]
  exact Nat.div_lt_self (Int.natAbs_pos.mpr h) (by norm_num)

/-- The global configuration produced by `set_global_values` (the globals
`s`, `E`, `b`, `total_sets = pow2 s`, `total_bytes = pow2 b`,
`set_mask = total_sets - 1`). No argument is validated. -/
structure Config where
  s : Int
  E : Int
  b : Int
  total_sets : Int
  total_bytes : Int
  set_mask : Int
deriving DecidableEq

def set_global_values (sArg EArg bArg : Int) : Config :=
  { s := sArg, E := EArg, b := bArg,
    total_sets := pow2 sArg, total_bytes := pow2 bArg,
    set_mask := pow2 sArg - 1 }

/-- The whole simulator state: the array `sets` (total function on indices;
only indices below `2^s` are ever touched because of the mask) plus the
statistics record. -/
structure Cache where
  sets : Nat → List Line
  stats : Stats

def initCache : Cache :=
  { sets := fun _ => [], stats := initStats }

/-- One full iteration of the trace loop in `main` for a record
`(op, addr)`: parse, pick the set, run `access`, store the updated set.
For nonnegative `s` and `b` the globals satisfy `total_bytes = 2^b` and
`set_mask = 2^s - 1` (lemma `pow2_ofNat` below). -/
def doAccess (E : Int) (s b : Nat) (c : Cache) (r : Char × Nat) : Cache :=
  let p := parsing_line s b (2 ^ s - 1) r.1 r.2
  let res := access E (2 ^ b) p.is_load p.tag (c.sets p.set_num) c.stats
  { sets := Function.update c.sets p.set_num res.1, stats := res.2 }

/-- Processing a whole trace from the freshly-calloc'ed state. -/
def run (E : Int) (s b : Nat) (trace : List (Char × Nat)) : Cache :=
  trace.foldl (doAccess E s b) initCache

/-- The `miss_type` value `main` sees for record `r` in state `c`. -/
def stepType (E : Int) (s b : Nat) (c : Cache) (r : Char × Nat) : Int :=
  let p := parsing_line s b (2 ^ s - 1) r.1 r.2
  miss_type E (c.sets p.set_num) p.tag

/-- The sequence of `miss_type` values observed along a trace. -/
def traceTypes (E : Int) (s b : Nat) : Cache → List (Char × Nat) → List Int
  | _, [] => []
  | c, r :: rest => stepType E s b c r :: traceTypes E s b (doAccess E s b c r) rest

/-- Number of dirty lines in one set. -/
def dirtyCount (l : List Line) : Nat :=
  l.countP (fun x => x.dirty_bit)

/-- Number of dirty lines resident anywhere in the cache. -/
def totalDirty (s : Nat) (c : Cache) : Nat :=
  ∑ i ∈ Finset.range (2 ^ s), dirtyCount (c.sets i)

/-- Does processing `r` in state `c` evict a dirty line? -/
def stepEvictsDirty (E : Int) (s b : Nat) (c : Cache) (r : Char × Nat) : Bool :=
  let p := parsing_line s b (2 ^ s - 1) r.1 r.2
  let st := c.sets p.set_num
  (miss_type E st p.tag == -2) && (st.headD (init_line 0)).dirty_bit

/-- Is processing `r` in state `c` a store that hits an already-dirty line? -/
def stepHitsDirtyStore (E : Int) (s b : Nat) (c : Cache) (r : Char × Nat) : Bool :=
  let p := parsing_line s b (2 ^ s - 1) r.1 r.2
  let st := c.sets p.set_num
  let t := miss_type E st p.tag
  decide (0 ≤ t) && (get_line st t.toNat).dirty_bit && !p.is_load

/-! ## Properties of the scan (`findTag`) -/

theorem findTag_eq_none_iff (tag : Nat) (l : List Line) :
    findTag tag l = none ↔ ∀ x ∈ l, x.tag ≠ tag := by
  induction l with
  | nil => simp [findTag]
  | cons a l ih =>
    by_cases h : a.tag = tag
    · simp [findTag, h]
    · simp [findTag, h, Option.map_eq_none', ih]

theorem findTag_some_lt {tag : Nat} {l : List Line} {i : Nat}
    (h : findTag tag l = some i) : i < l.length := by
  induction l generalizing i with
  | nil => simp [findTag] at h
  | cons a l ih =>
    by_cases ha : a.tag = tag
    · simp [findTag, ha] at h
      simp [← h]
    · simp only [findTag, ha, if_false, Option.map_eq_some'] at h
      obtain ⟨j, hj, rfl⟩ := h
      have := ih hj
      simp only [List.length_cons]
      omega

theorem findTag_some_get {tag : Nat} {l : List Line} {i : Nat}
    (h : findTag tag l = some i) : (get_line l i).tag = tag := by
  induction l generalizing i with
  | nil => simp [findTag] at h
  | cons a l ih =>
    by_cases ha : a.tag = tag
    · simp [findTag, ha] at h
      simp [get_line, ← h, ha]
    · simp only [findTag, ha, if_false, Option.map_eq_some'] at h
      obtain ⟨j, hj, rfl⟩ := h
      simpa [get_line] using ih hj

theorem findTag_of_nodup {tag : Nat} {l : List Line} {i : Nat}
    (hn : (l.map Line.tag).Nodup) (hi : i < l.length)
    (ht : (get_line l i).tag = tag) : findTag tag l = some i := by
  induction l generalizing i with
  | nil => simp at hi
  | cons a l ih =>
    rcases i with _ | j
    · have : a.tag = tag := by simpa [get_line] using ht
      simp [findTag, this]
    · have hj : j < l.length := by
        simpa [Nat.succ_lt_succ_iff] using hi
      have ht' : (get_line l j).tag = tag := by simpa [get_line] using ht
      have hn2 : a.tag ∉ l.map Line.tag ∧ (l.map Line.tag).Nodup := by
        rw [List.map_cons, List.nodup_cons] at hn
        exact hn
      have hn' : (l.map Line.tag).Nodup := hn2.2
      by_cases ha : a.tag = tag
      · exfalso
        have hmem : tag ∈ l.map Line.tag := by
          refine List.mem_map.mpr ⟨get_line l j, ?_, ht'⟩
          have := List.getD_eq_getElem l (init_line 0) hj
          rw [get_line, this]
          exact List.getElem_mem hj
        exact hn2.1 (ha ▸ hmem)
      · simp [findTag, ha, ih hn' hj ht']

/-! ## Properties of `miss_type` -/

theorem miss_type_of_findTag_some {E : Int} {tag : Nat} {l : List Line} {i : Nat}
    (h : findTag tag l = some i) : miss_type E l tag = i := by
  have hne : l.length ≠ 0 := by
    intro hlen
    rw [List.length_eq_zero] at hlen
    subst hlen
    simp [findTag] at h
  simp [miss_type, hne, h]

theorem miss_type_trichotomy (E : Int) (l : List Line) (tag : Nat) :
    miss_type E l tag = -1 ∨ miss_type E l tag = -2 ∨ 0 ≤ miss_type E l tag := by
  unfold miss_type
  by_cases h0 : l.length = 0
  · simp [h0]
  · rcases hf : findTag tag l with _ | i
    · by_cases hE : (l.length : Int) = E <;> simp [h0, hf, hE]
    · simp [h0, hf]

theorem miss_type_nonneg_find {E : Int} {l : List Line} {tag : Nat}
    (h : 0 ≤ miss_type E l tag) :
    findTag tag l = some (miss_type E l tag).toNat := by
  unfold miss_type at *
  by_cases h0 : l.length = 0
  · simp [h0] at h
  · rcases hf : findTag tag l with _ | i
    · by_cases hE : (l.length : Int) = E <;> simp [h0, hf, hE] at h
    · simp [h0, hf]

theorem miss_type_neg2_iff {E : Int} {l : List Line} {tag : Nat} :
    miss_type E l tag = -2 ↔
      l ≠ [] ∧ findTag tag l = none ∧ (l.length : Int) = E := by
  unfold miss_type
  by_cases h0 : l.length = 0
  · rw [List.length_eq_zero] at h0
    simp [h0]
  · have hne : l ≠ [] := by
      intro h; rw [h] at h0; simp at h0
    rcases hf : findTag tag l with _ | i
    · by_cases hE : (l.length : Int) = E <;>
        simp [List.length_eq_zero, h0, hf, hE, hne]
    · simp [List.length_eq_zero, h0, hf]

theorem miss_type_neg1_cases {E : Int} {l : List Line} {tag : Nat}
    (h : miss_type E l tag = -1) :
    (∀ x ∈ l, x.tag ≠ tag) ∧ (l.length = 0 ∨ (l.length : Int) ≠ E) := by
  unfold miss_type at h
  by_cases h0 : l.length = 0
  · rw [List.length_eq_zero] at h0
    subst h0
    simp
  · rcases hf : findTag tag l with _ | i
    · refine ⟨(findTag_eq_none_iff tag l).mp hf, ?_⟩
      by_cases hE : (l.length : Int) = E
      · simp [h0, hf, hE] at h
      · exact Or.inr hE
    · simp [h0, hf] at h

/-! ## Branch equations for `access` -/

theorem access_cold_eq {E : Int} {tb : Nat} {il : Bool} {tag : Nat}
    {set : List Line} {st : Stats} (h : miss_type E set tag = -1) :
    access E tb il tag set st =
      (set ++ [{ dirty_bit := !il, valid_bit := true, tag := tag }],
       { st with
          misses := st.misses + 1
          dirty_bytes := st.dirty_bytes + (if il then 0 else tb) }) := by
  cases il <;> simp [access, h, init_line]

theorem access_cap_eq {E : Int} {tb : Nat} {il : Bool} {tag : Nat}
    {set : List Line} {st : Stats} (h : miss_type E set tag = -2) :
    access E tb il tag set st =
      (set.tail ++ [{ dirty_bit := !il, valid_bit := true, tag := tag }],
       { st with
          misses := st.misses + 1
          evictions := st.evictions + 1
          dirty_evictions :=
            st.dirty_evictions
              + (if (set.headD (init_line 0)).dirty_bit then tb else 0)
          dirty_bytes :=
            st.dirty_bytes - (if (set.headD (init_line 0)).dirty_bit then tb else 0)
              + (if il then 0 else tb) }) := by
  cases il <;> simp [access, h, init_line]

theorem access_hit_eq {E : Int} {tb : Nat} {il : Bool} {tag : Nat}
    {set : List Line} {st : Stats} {i : Nat} (hf : findTag tag set = some i) :
    access E tb il tag set st =
      (set.eraseIdx i ++
        [if !il && !(get_line set i).dirty_bit then
            { get_line set i with dirty_bit := true }
          else get_line set i],
       { st with
          hits := st.hits + 1
          dirty_bytes :=
            st.dirty_bytes
              + (if !il && !(get_line set i).dirty_bit then tb else 0) }) := by
  have hm : miss_type E set tag = i := miss_type_of_findTag_some hf
  have h1 : miss_type E set tag ≠ -1 := by rw [hm]; omega
  have h2 : miss_type E set tag ≠ -2 := by rw [hm]; omega
  simp [access, hm, h1, h2]

/-! ## `pow2` computes powers of two (and accepts any argument) -/

theorem natAbs_tmod_two (i : Int) : (i.tmod 2).natAbs = i.natAbs % 2 := by
  cases i with
  | ofNat n => rfl
  | negSucc n =>
    rw [show ((Int.negSucc n).tmod 2) = -(Int.ofNat ((n + 1) % 2)) from rfl]
    simp
    omega

theorem pow2_natAbs_aux : ∀ (n : Nat) (i : Int), i.natAbs = n → pow2 i = 2 ^ n := by
  intro n
  induction n using Nat.strong_induction_on with
  | _ n ih =>
    intro i hn
    subst hn
    rw [pow2]
    by_cases h0 : i = 0
    · subst h0; simp
    · simp only [dif_neg h0]
      have hd : (i.tdiv 2).natAbs = i.natAbs / 2 := by
        rw [Int.natAbs_tdiv]; rfl
      have hlt : (i.tdiv 2).natAbs < i.natAbs := by
        rw [hd]
        exact Nat.div_lt_self (Int.natAbs_pos.mpr h0) one_lt_two
      have hrec := ih _ hlt (i.tdiv 2) rfl
      rw [hrec, hd]
      by_cases hpar : i.tmod 2 = 0
      · have hp : i.natAbs % 2 = 0 := by
          have h := natAbs_tmod_two i
          rw [hpar] at h
          simpa using h.symm
        simp only [hpar, if_true]
        rw [← pow_add]
        congr 1
        omega
      · have hp : i.natAbs % 2 ≠ 0 := by
          intro hc
          apply hpar
          have h := natAbs_tmod_two i
          rw [hc] at h
          exact Int.natAbs_eq_zero.mp h
        simp only [hpar, if_false]
        rw [mul_assoc, ← pow_add, ← pow_succ']
        congr 1
        omega

theorem pow2_natAbs (i : Int) : pow2 i = 2 ^ i.natAbs :=
  pow2_natAbs_aux i.natAbs i rfl

theorem pow2_ofNat (n : Nat) : pow2 (n : Int) = 2 ^ n := by
  rw [pow2_natAbs]; simp

theorem pow2_pos (i : Int) : 0 < pow2 i := by
  rw [pow2_natAbs]; positivity

theorem pow2_toNat (n : Nat) : (pow2 (n : Int)).toNat = 2 ^ n := by
  rw [pow2_ofNat, show ((2 : Int) ^ n) = ((2 ^ n : Nat) : Int) by push_cast; ring,
    Int.toNat_natCast]

/-! ## List helpers for the LRU order -/

theorem get_line_decomp {l : List Line} {i : Nat} (h : i < l.length) :
    l = l.take i ++ get_line l i :: l.drop (i + 1) := by
  conv_lhs => rw [← List.take_append_drop i l, List.drop_eq_getElem_cons h]
  rw [get_line, List.getD_eq_getElem l _ h]

theorem eraseIdx_append_get_perm {l : List Line} {i : Nat} (h : i < l.length) :
    (l.eraseIdx i ++ [get_line l i]).Perm l := by
  rw [List.eraseIdx_eq_take_drop_succ]
  refine ((List.perm_append_singleton _ _).trans List.perm_middle.symm).trans ?_
  rw [← get_line_decomp h]

theorem dirtyCount_eraseIdx {l : List Line} {i : Nat} (h : i < l.length) :
    dirtyCount l = dirtyCount (l.eraseIdx i)
      + (if (get_line l i).dirty_bit then 1 else 0) := by
  conv_lhs => rw [get_line_decomp h]
  rw [List.eraseIdx_eq_take_drop_succ]
  cases hd : (get_line l i).dirty_bit <;>
    simp [dirtyCount, List.countP_append, List.countP_cons, hd] <;> omega

theorem length_eraseIdx_lt {l : List Line} {i : Nat} (h : i < l.length) :
    (l.eraseIdx i).length = l.length - 1 := by
  rw [List.length_eraseIdx]
  simp [h]

/-! ## The trace fold -/

theorem run_append (E : Int) (s b : Nat) (tr : List (Char × Nat)) (r : Char × Nat) :
    run E s b (tr ++ [r]) = doAccess E s b (run E s b tr) r := by
  simp [run, List.foldl_append]

theorem foldl_invariant {P : Cache → Prop} (E : Int) (s b : Nat)
    (hstep : ∀ c r, P c → P (doAccess E s b c r)) :
    ∀ (tr : List (Char × Nat)) (c : Cache), P c → P (tr.foldl (doAccess E s b) c) := by
  intro tr
  induction tr with
  | nil => exact fun c h => h
  | cons r rest ih => exact fun c h => ih _ (hstep c r h)

theorem parse_set_num_lt (s b : Nat) (op : Char) (addr : Nat) :
    (parsing_line s b (2 ^ s - 1) op addr).set_num < 2 ^ s := by
  have h1 : ((parsing_line s b (2 ^ s - 1) op addr).set_num) ≤ 2 ^ s - 1 := by
    simp only [parsing_line]
    exact Nat.and_le_right
  have h2 : 0 < 2 ^ s := Nat.pos_pow_of_pos s (by norm_num)
  omega

theorem traceTypes_forall {P : Int → Prop} (E : Int) (s b : Nat)
    (h : ∀ c r, P (stepType E s b c r)) :
    ∀ (tr : List (Char × Nat)) (c : Cache), ∀ t ∈ traceTypes E s b c tr, P t := by
  intro tr
  induction tr with
  | nil => intro c t ht; simp [traceTypes] at ht
  | cons r rest ih =>
    intro c t ht
    simp only [traceTypes, List.mem_cons] at ht
    rcases ht with rfl | ht
    · exact h c r
    · exact ih _ t ht

theorem traceTypes_length (E : Int) (s b : Nat) :
    ∀ (tr : List (Char × Nat)) (c : Cache),
      (traceTypes E s b c tr).length = tr.length := by
  intro tr
  induction tr with
  | nil => intro c; simp [traceTypes]
  | cons r rest ih => intro c; simp [traceTypes, ih]

/-! ## Per-access step lemmas -/

theorem access_length_le {E : Int} {tb : Nat} {il : Bool} {tag : Nat}
    {set : List Line} {st : Stats} (hE : 1 ≤ E)
    (hlen : (set.length : Int) ≤ E) :
    (((access E tb il tag set st).1).length : Int) ≤ E := by
  rcases miss_type_trichotomy E set tag with h | h | h
  · rw [access_cold_eq h]
    obtain ⟨-, hc⟩ := miss_type_neg1_cases h
    simp only [List.length_append, List.length_singleton]
    rcases hc with hc | hc
    · rw [hc]; omega
    · push_cast
      omega
  · rw [access_cap_eq h]
    obtain ⟨hne, -, hlenE⟩ := miss_type_neg2_iff.mp h
    have h0 : set.length ≠ 0 := by
      simpa [List.length_eq_zero] using hne
    simp only [List.length_append, List.length_singleton, List.length_tail]
    push_cast
    omega
  · have hf := miss_type_nonneg_find h
    rw [access_hit_eq hf]
    have hlt := findTag_some_lt hf
    simp only [List.length_append, List.length_singleton, length_eraseIdx_lt hlt]
    push_cast
    omega

theorem access_tags_nodup {E : Int} {tb : Nat} {il : Bool} {tag : Nat}
    {set : List Line} {st : Stats} (hn : (set.map Line.tag).Nodup) :
    (((access E tb il tag set st).1).map Line.tag).Nodup := by
  rcases miss_type_trichotomy E set tag with h | h | h
  · rw [access_cold_eq h]
    obtain ⟨habs, -⟩ := miss_type_neg1_cases h
    rw [List.map_append, List.nodup_append]
    refine ⟨hn, by simp, ?_⟩
    intro a ha hb
    simp only [List.map_cons, List.map_nil, List.mem_singleton] at hb
    subst hb
    obtain ⟨x, hx, hxt⟩ := List.mem_map.mp ha
    exact habs x hx hxt
  · rw [access_cap_eq h]
    obtain ⟨hne, hnone, -⟩ := miss_type_neg2_iff.mp h
    have habs := (findTag_eq_none_iff _ _).mp hnone
    rw [List.map_append, List.nodup_append]
    refine ⟨?_, by simp, ?_⟩
    · rw [List.map_tail]
      exact List.Nodup.sublist (List.tail_sublist _) hn
    · intro a ha hb
      simp only [List.map_cons, List.map_nil, List.mem_singleton] at hb
      subst hb
      rw [List.map_tail] at ha
      obtain ⟨x, hx, hxt⟩ := List.mem_map.mp (List.mem_of_mem_tail ha)
      exact habs x hx hxt
  · have hf := miss_type_nonneg_find h
    have hlt := findTag_some_lt hf
    rw [access_hit_eq hf]
    have hperm := (eraseIdx_append_get_perm hlt).map Line.tag
    have htags :
        ((set.eraseIdx (miss_type E set tag).toNat ++
            [if !il && !(get_line set (miss_type E set tag).toNat).dirty_bit then
                { get_line set (miss_type E set tag).toNat with dirty_bit := true }
              else get_line set (miss_type E set tag).toNat]).map Line.tag)
          = ((set.eraseIdx (miss_type E set tag).toNat ++
              [get_line set (miss_type E set tag).toNat]).map Line.tag) := by
      split_ifs <;> simp
    rw [htags]
    exact hperm.nodup_iff.mpr hn

theorem access_dirty_bytes {E : Int} {tb : Nat} {il : Bool} {tag : Nat}
    {set : List Line} {st : Stats} (R : Nat)
    (hdb : st.dirty_bytes = tb * (dirtyCount set + R)) :
    (access E tb il tag set st).2.dirty_bytes
      = tb * (dirtyCount (access E tb il tag set st).1 + R) := by
  rcases miss_type_trichotomy E set tag with h | h | h
  · rw [access_cold_eq h]
    cases il
    · have hnl : dirtyCount (set ++ [{ dirty_bit := !false, valid_bit := true, tag := tag }])
          = dirtyCount set + 1 := by
        simp [dirtyCount, List.countP_append, List.countP_cons]
      simp only [hnl, Bool.false_eq_true, if_false]
      have he : tb * (dirtyCount set + 1 + R) = tb * (dirtyCount set + R) + tb := by ring
      rw [he]
      omega
    · have hnl : dirtyCount (set ++ [{ dirty_bit := !true, valid_bit := true, tag := tag }])
          = dirtyCount set := by
        simp [dirtyCount, List.countP_append, List.countP_cons]
      simp only [hnl, eq_self_iff_true, if_true]
      omega
  · obtain ⟨hne, -, -⟩ := miss_type_neg2_iff.mp h
    cases set with
    | nil => exact absurd rfl hne
    | cons hd tl =>
      rw [access_cap_eq h]
      simp only [List.headD_cons, List.tail_cons]
      have hdc : dirtyCount (hd :: tl)
          = dirtyCount tl + (if hd.dirty_bit then 1 else 0) := by
        simp only [dirtyCount, List.countP_cons]
      rw [hdc] at hdb
      cases il
      · have hnl : dirtyCount (tl ++ [{ dirty_bit := !false, valid_bit := true, tag := tag }])
            = dirtyCount tl + 1 := by
          simp [dirtyCount, List.countP_append, List.countP_cons]
        simp only [hnl, Bool.false_eq_true, if_false]
        have he : tb * (dirtyCount tl + 1 + R) = tb * (dirtyCount tl + R) + tb := by ring
        rw [he]
        by_cases hhd : hd.dirty_bit = true
        · rw [if_pos hhd] at hdb ⊢
          rw [he] at hdb
          omega
        · rw [if_neg hhd] at hdb ⊢
          simp only [Nat.add_zero] at hdb
          omega
      · have hnl : dirtyCount (tl ++ [{ dirty_bit := !true, valid_bit := true, tag := tag }])
            = dirtyCount tl := by
          simp [dirtyCount, List.countP_append, List.countP_cons]
        simp only [hnl, eq_self_iff_true, if_true]
        by_cases hhd : hd.dirty_bit = true
        · rw [if_pos hhd] at hdb ⊢
          have he : tb * (dirtyCount tl + 1 + R) = tb * (dirtyCount tl + R) + tb := by ring
          rw [he] at hdb
          omega
        · rw [if_neg hhd] at hdb ⊢
          simp only [Nat.add_zero] at hdb
          omega
  · have hf := miss_type_nonneg_find h
    have hlt := findTag_some_lt hf
    rw [access_hit_eq hf]
    rw [dirtyCount_eraseIdx hlt] at hdb
    cases il
    · by_cases hcd : (get_line set (miss_type E set tag).toNat).dirty_bit = true
      · rw [show (!false && !(get_line set (miss_type E set tag).toNat).dirty_bit) = false
            by simp [hcd]]
        have hnl : dirtyCount
              (set.eraseIdx (miss_type E set tag).toNat
                ++ [get_line set (miss_type E set tag).toNat])
            = dirtyCount (set.eraseIdx (miss_type E set tag).toNat) + 1 := by
          simp [dirtyCount, List.countP_append, List.countP_cons, hcd]
        simp only [Bool.false_eq_true, if_false, hnl]
        rw [if_pos hcd] at hdb
        omega
      · rw [show (!false && !(get_line set (miss_type E set tag).toNat).dirty_bit) = true
            by simp [Bool.not_eq_true] at hcd; simp [hcd]]
        have hnl : dirtyCount
              (set.eraseIdx (miss_type E set tag).toNat
                ++ [{ dirty_bit := true,
                      valid_bit := (get_line set (miss_type E set tag).toNat).valid_bit,
                      tag := (get_line set (miss_type E set tag).toNat).tag }])
            = dirtyCount (set.eraseIdx (miss_type E set tag).toNat) + 1 := by
          simp [dirtyCount, List.countP_append, List.countP_cons]
        simp only [eq_self_iff_true, if_true, hnl]
        rw [if_neg hcd] at hdb
        simp only [Nat.add_zero] at hdb
        have he : tb * (dirtyCount (set.eraseIdx (miss_type E set tag).toNat) + 1 + R)
            = tb * (dirtyCount (set.eraseIdx (miss_type E set tag).toNat) + R) + tb := by
          ring
        rw [he]
        omega
    · rw [show (!true && !(get_line set (miss_type E set tag).toNat).dirty_bit) = false
          by simp]
      simp only [Bool.false_eq_true, if_false]
      by_cases hcd : (get_line set (miss_type E set tag).toNat).dirty_bit = true
      · have hnl : dirtyCount
              (set.eraseIdx (miss_type E set tag).toNat
                ++ [get_line set (miss_type E set tag).toNat])
            = dirtyCount (set.eraseIdx (miss_type E set tag).toNat) + 1 := by
          simp [dirtyCount, List.countP_append, List.countP_cons, hcd]
        rw [hnl]
        rw [if_pos hcd] at hdb
        omega
      · have hnl : dirtyCount
              (set.eraseIdx (miss_type E set tag).toNat
                ++ [get_line set (miss_type E set tag).toNat])
            = dirtyCount (set.eraseIdx (miss_type E set tag).toNat) := by
          simp [Bool.not_eq_true] at hcd
          simp [dirtyCount, List.countP_append, List.countP_cons, hcd]
        rw [hnl]
        rw [if_neg hcd] at hdb
        simp only [Nat.add_zero] at hdb
        omega

theorem access_dirty_evictions {E : Int} {tb : Nat} {il : Bool} {tag : Nat}
    {set : List Line} {st : Stats} :
    (access E tb il tag set st).2.dirty_evictions
      = st.dirty_evictions
        + (if (miss_type E set tag == -2) && (set.headD (init_line 0)).dirty_bit
            then tb else 0) := by
  rcases miss_type_trichotomy E set tag with h | h | h
  · rw [access_cold_eq h]; simp [h]
  · rw [access_cap_eq h]
    cases hhd : (set.headD (init_line 0)).dirty_bit <;> simp [h, hhd]
  · have hf := miss_type_nonneg_find h
    rw [access_hit_eq hf]
    have : miss_type E set tag ≠ -2 := by omega
    simp [this]

theorem access_counter_step {E : Int} {tb : Nat} {il : Bool} {tag : Nat}
    {set : List Line} {st : Stats} :
    (access E tb il tag set st).2.hits
        = st.hits + (if 0 ≤ miss_type E set tag then 1 else 0) ∧
    (access E tb il tag set st).2.misses
        = st.misses + (if miss_type E set tag = -1 then 1 else 0)
            + (if miss_type E set tag = -2 then 1 else 0) ∧
    (access E tb il tag set st).2.evictions
        = st.evictions + (if miss_type E set tag = -2 then 1 else 0) := by
  rcases miss_type_trichotomy E set tag with h | h | h
  · rw [access_cold_eq h]
    have h1 : ¬ (0 : Int) ≤ -1 := by omega
    have h2 : (-1 : Int) ≠ -2 := by omega
    simp [h, h1, h2]
  · rw [access_cap_eq h]
    have h1 : ¬ (0 : Int) ≤ -2 := by omega
    have h2 : (-2 : Int) ≠ -1 := by omega
    simp [h, h1, h2]
  · have hf := miss_type_nonneg_find h
    rw [access_hit_eq hf]
    have h1 : miss_type E set tag ≠ -1 := by omega
    have h2 : miss_type E set tag ≠ -2 := by omega
    simp [h, h1, h2]

/-! ## `totalDirty` under a pointwise set update -/

theorem totalDirty_update (s : Nat) (f : Nat → List Line) (idx : Nat)
    (hidx : idx < 2 ^ s) (ns : List Line) :
    ∑ i ∈ Finset.range (2 ^ s), dirtyCount (Function.update f idx ns i)
      = dirtyCount ns + ∑ i ∈ Finset.range (2 ^ s) \ {idx}, dirtyCount (f i) := by
  have hmem : idx ∈ Finset.range (2 ^ s) := Finset.mem_range.mpr hidx
  have hcongr : ∀ i, dirtyCount (Function.update f idx ns i)
      = Function.update (fun j => dirtyCount (f j)) idx (dirtyCount ns) i := by
    intro i
    by_cases hij : i = idx
    · subst hij; simp
    · simp [Function.update_noteq hij]
  rw [Finset.sum_congr rfl (fun i _ => hcongr i), Finset.sum_update_of_mem hmem]

theorem totalDirty_split (s : Nat) (c : Cache) (idx : Nat) (hidx : idx < 2 ^ s) :
    totalDirty s c
      = dirtyCount (c.sets idx) + ∑ i ∈ Finset.range (2 ^ s) \ {idx}, dirtyCount (c.sets i) := by
  exact Finset.sum_eq_add_sum_diff_singleton (Finset.mem_range.mpr hidx) _


/-! ## `doAccess` projections and counter bookkeeping -/

theorem doAccess_sets_def (E : Int) (s b : Nat) (c : Cache) (r : Char × Nat) :
    (doAccess E s b c r).sets
      = Function.update c.sets (parsing_line s b (2 ^ s - 1) r.1 r.2).set_num
          (access E (2 ^ b) (parsing_line s b (2 ^ s - 1) r.1 r.2).is_load
            (parsing_line s b (2 ^ s - 1) r.1 r.2).tag
            (c.sets (parsing_line s b (2 ^ s - 1) r.1 r.2).set_num) c.stats).1 := rfl

theorem doAccess_stats_def (E : Int) (s b : Nat) (c : Cache) (r : Char × Nat) :
    (doAccess E s b c r).stats
      = (access E (2 ^ b) (parsing_line s b (2 ^ s - 1) r.1 r.2).is_load
          (parsing_line s b (2 ^ s - 1) r.1 r.2).tag
          (c.sets (parsing_line s b (2 ^ s - 1) r.1 r.2).set_num) c.stats).2 := rfl

theorem doAccess_counters (E : Int) (s b : Nat) (c : Cache) (r : Char × Nat) :
    (doAccess E s b c r).stats.hits
        = c.stats.hits + (if 0 ≤ stepType E s b c r then 1 else 0) ∧
    (doAccess E s b c r).stats.misses
        = c.stats.misses + (if stepType E s b c r = -1 then 1 else 0)
            + (if stepType E s b c r = -2 then 1 else 0) ∧
    (doAccess E s b c r).stats.evictions
        = c.stats.evictions + (if stepType E s b c r = -2 then 1 else 0) := by
  rw [doAccess_stats_def]
  exact access_counter_step

theorem counters_fold (E : Int) (s b : Nat) :
    ∀ (tr : List (Char × Nat)) (c : Cache),
      (tr.foldl (doAccess E s b) c).stats.hits
          = c.stats.hits + (traceTypes E s b c tr).countP (fun t => decide (0 ≤ t)) ∧
      (tr.foldl (doAccess E s b) c).stats.misses
          = c.stats.misses + ((traceTypes E s b c tr).countP (fun t => t == -1)
              + (traceTypes E s b c tr).countP (fun t => t == -2)) ∧
      (tr.foldl (doAccess E s b) c).stats.evictions
          = c.stats.evictions + (traceTypes E s b c tr).countP (fun t => t == -2) := by
  intro tr
  induction tr with
  | nil => intro c; simp [traceTypes]
  | cons r rest ih =>
    intro c
    obtain ⟨ih1, ih2, ih3⟩ := ih (doAccess E s b c r)
    obtain ⟨d1, d2, d3⟩ := doAccess_counters E s b c r
    simp only [List.foldl_cons, traceTypes, List.countP_cons]
    refine ⟨?_, ?_, ?_⟩
    · rw [ih1, d1]
      by_cases hc : 0 ≤ stepType E s b c r <;> simp [hc] <;> omega
    · rw [ih2, d2]
      by_cases h1 : stepType E s b c r = -1 <;>
        by_cases h2 : stepType E s b c r = -2 <;>
        simp [h1, h2, beq_iff_eq] <;> omega
    · rw [ih3, d3]
      by_cases h2 : stepType E s b c r = -2 <;> simp [h2, beq_iff_eq] <;> omega

/-! ## Dirty-byte invariant along a trace -/

theorem dirty_invariant_fold (E : Int) (s b : Nat) :
    ∀ (tr : List (Char × Nat)) (c : Cache),
      c.stats.dirty_bytes = 2 ^ b * totalDirty s c →
      (tr.foldl (doAccess E s b) c).stats.dirty_bytes
        = 2 ^ b * totalDirty s (tr.foldl (doAccess E s b) c) := by
  have hstep : ∀ (c : Cache) (r : Char × Nat),
      c.stats.dirty_bytes = 2 ^ b * totalDirty s c →
      (doAccess E s b c r).stats.dirty_bytes
        = 2 ^ b * totalDirty s (doAccess E s b c r) := by
    intro c r h
    have hidx := parse_set_num_lt s b r.1 r.2
    have hR : c.stats.dirty_bytes
        = 2 ^ b * (dirtyCount (c.sets (parsing_line s b (2 ^ s - 1) r.1 r.2).set_num)
            + ∑ i ∈ Finset.range (2 ^ s) \ {(parsing_line s b (2 ^ s - 1) r.1 r.2).set_num},
                dirtyCount (c.sets i)) := by
      rw [h, totalDirty_split s c (parsing_line s b (2 ^ s - 1) r.1 r.2).set_num hidx]
    have hacc : (access E (2 ^ b) (parsing_line s b (2 ^ s - 1) r.1 r.2).is_load
          (parsing_line s b (2 ^ s - 1) r.1 r.2).tag
          (c.sets (parsing_line s b (2 ^ s - 1) r.1 r.2).set_num) c.stats).2.dirty_bytes
        = 2 ^ b * (dirtyCount (access E (2 ^ b) (parsing_line s b (2 ^ s - 1) r.1 r.2).is_load
            (parsing_line s b (2 ^ s - 1) r.1 r.2).tag
            (c.sets (parsing_line s b (2 ^ s - 1) r.1 r.2).set_num) c.stats).1
          + ∑ i ∈ Finset.range (2 ^ s) \ {(parsing_line s b (2 ^ s - 1) r.1 r.2).set_num},
              dirtyCount (c.sets i)) := access_dirty_bytes _ hR
    have hupd : totalDirty s (doAccess E s b c r)
        = dirtyCount (access E (2 ^ b) (parsing_line s b (2 ^ s - 1) r.1 r.2).is_load
              (parsing_line s b (2 ^ s - 1) r.1 r.2).tag
              (c.sets (parsing_line s b (2 ^ s - 1) r.1 r.2).set_num) c.stats).1
          + ∑ i ∈ Finset.range (2 ^ s) \ {(parsing_line s b (2 ^ s - 1) r.1 r.2).set_num},
              dirtyCount (c.sets i) := by
      rw [totalDirty, doAccess_sets_def]
      exact totalDirty_update s c.sets _ hidx _
    rw [doAccess_stats_def, hacc, hupd]
  exact fun tr c h => foldl_invariant E s b hstep tr c h

/-! ## The claims -/

/-- C1: a hit on a resident line at any position moves exactly that line to
the most-recently-used end (the back of the set order), preserving the
relative order of all other lines; only its dirty bit can change (set by a
store). -/
theorem hit_moves_line_to_mru (E : Int) (tb : Nat) (is_load : Bool) (tag : Nat)
    (set : List Line) (stats : Stats) (i : Nat)
    (hn : (set.map Line.tag).Nodup) (hi : i < set.length)
    (ht : (get_line set i).tag = tag) :
    (access E tb is_load tag set stats).1
      = set.eraseIdx i
        ++ [{ dirty_bit := (get_line set i).dirty_bit || !is_load,
              valid_bit := (get_line set i).valid_bit,
              tag := (get_line set i).tag }] := by
  have hf := findTag_of_nodup hn hi ht
  rw [access_hit_eq hf]
  rcases hgl : get_line set i with ⟨d, v, t⟩
  cases is_load <;> cases d <;> simp

theorem hit_moves_line_to_mru_witness :
    ([init_line 5, init_line 7, init_line 9].map Line.tag).Nodup ∧
    (1 : Nat) < [init_line 5, init_line 7, init_line 9].length ∧
    (get_line [init_line 5, init_line 7, init_line 9] 1).tag = 7 ∧
    (access 3 2 true 7 [init_line 5, init_line 7, init_line 9] initStats).1
      = [init_line 5, init_line 7, init_line 9].eraseIdx 1
        ++ [{ dirty_bit :=
                (get_line [init_line 5, init_line 7, init_line 9] 1).dirty_bit || !true,
              valid_bit := (get_line [init_line 5, init_line 7, init_line 9] 1).valid_bit,
              tag := (get_line [init_line 5, init_line 7, init_line 9] 1).tag }] :=
  ⟨by decide, by decide, by decide,
    hit_moves_line_to_mru 3 2 true 7 [init_line 5, init_line 7, init_line 9] initStats 1
      (by decide) (by decide) (by decide)⟩

/-- C2: a miss in a set whose occupancy equals `E ≥ 1` removes exactly the
least-recently-used line (the front of the order) and appends a fresh line
with the accessed tag at the most-recently-used end; the eviction and miss
counters each increase by one. -/
theorem eviction_takes_lru_front (E : Int) (tb : Nat) (is_load : Bool) (tag : Nat)
    (set : List Line) (stats : Stats)
    (hE : 1 ≤ E) (hlen : (set.length : Int) = E)
    (habs : ∀ x ∈ set, x.tag ≠ tag) :
    (access E tb is_load tag set stats).1
      = set.tail ++ [{ dirty_bit := !is_load, valid_bit := true, tag := tag }] ∧
    (access E tb is_load tag set stats).2.evictions = stats.evictions + 1 ∧
    (access E tb is_load tag set stats).2.misses = stats.misses + 1 := by
  have hne : set ≠ [] := by
    intro hnil
    subst hnil
    simp at hlen
    omega
  have h2 : miss_type E set tag = -2 :=
    miss_type_neg2_iff.mpr ⟨hne, (findTag_eq_none_iff tag set).mpr habs, hlen⟩
  rw [access_cap_eq h2]
  exact ⟨rfl, rfl, rfl⟩

theorem eviction_takes_lru_front_witness :
    (1 : Int) ≤ 1 ∧ (([init_line 4].length : Int) = 1) ∧
    (∀ x ∈ [init_line 4], x.tag ≠ 9) ∧
    (access 1 2 false 9 [init_line 4] initStats).1
      = [init_line 4].tail ++ [{ dirty_bit := !false, valid_bit := true, tag := 9 }] :=
  ⟨by norm_num, by decide, by decide,
    (eviction_takes_lru_front 1 2 false 9 [init_line 4] initStats
      (by norm_num) (by decide) (by decide)).1⟩

/-- C3: at every point of trace processing, `dirty_bytes` equals the line
size `2^b` times the number of resident dirty lines; each step increases
`dirty_evictions` by exactly `2^b` when it evicts a dirty line and leaves
it unchanged otherwise; and a store hitting an already-dirty line leaves
`dirty_bytes` unchanged. -/
theorem dirty_accounting (E : Int) (s b : Nat) (tr : List (Char × Nat))
    (r : Char × Nat) :
    (run E s b tr).stats.dirty_bytes = 2 ^ b * totalDirty s (run E s b tr) ∧
    (run E s b (tr ++ [r])).stats.dirty_evictions
      = (run E s b tr).stats.dirty_evictions
        + (if stepEvictsDirty E s b (run E s b tr) r then 2 ^ b else 0) ∧
    (stepHitsDirtyStore E s b (run E s b tr) r = true →
      (run E s b (tr ++ [r])).stats.dirty_bytes
        = (run E s b tr).stats.dirty_bytes) := by
  refine ⟨?_, ?_, ?_⟩
  · exact dirty_invariant_fold E s b tr initCache
      (by simp [initCache, initStats, totalDirty, dirtyCount])
  · rw [run_append, doAccess_stats_def]
    exact access_dirty_evictions
  · intro hs
    rw [run_append, doAccess_stats_def]
    simp only [stepHitsDirtyStore, Bool.and_eq_true, decide_eq_true_eq] at hs
    obtain ⟨⟨h0, hdirty⟩, -⟩ := hs
    have hf := miss_type_nonneg_find h0
    rw [access_hit_eq hf]
    rw [show (!(parsing_line s b (2 ^ s - 1) r.1 r.2).is_load
          && !(get_line ((run E s b tr).sets (parsing_line s b (2 ^ s - 1) r.1 r.2).set_num)
                ((miss_type E
                    ((run E s b tr).sets (parsing_line s b (2 ^ s - 1) r.1 r.2).set_num)
                    (parsing_line s b (2 ^ s - 1) r.1 r.2).tag).toNat)).dirty_bit) = false
        from by simp [hdirty]]
    simp

theorem dirty_accounting_witness :
    stepHitsDirtyStore 1 0 0 (run 1 0 0 [('S', 0)]) ('S', 0) = true ∧
    (run 1 0 0 ([('S', 0)] ++ [('S', 0)])).stats.dirty_bytes
      = (run 1 0 0 [('S', 0)]).stats.dirty_bytes :=
  ⟨by decide, (dirty_accounting 1 0 0 [('S', 0)] ('S', 0)).2.2 (by decide)⟩

/-- C4: every processed access is classified as exactly one of hit
(`miss_type ≥ 0`), cold miss (`-1`) or capacity miss (`-2`); along any
trace `misses` equals the number of cold misses plus capacity misses,
`evictions` equals the number of capacity misses, and `hits` equals the
number of hits. -/
theorem classification_counts (E : Int) (s b : Nat) (tr : List (Char × Nat)) :
    (traceTypes E s b initCache tr).length = tr.length ∧
    (∀ t ∈ traceTypes E s b initCache tr, t = -1 ∨ t = -2 ∨ 0 ≤ t) ∧
    (run E s b tr).stats.misses
      = (traceTypes E s b initCache tr).countP (fun t => t == -1)
        + (traceTypes E s b initCache tr).countP (fun t => t == -2) ∧
    (run E s b tr).stats.evictions
      = (traceTypes E s b initCache tr).countP (fun t => t == -2) ∧
    (run E s b tr).stats.hits
      = (traceTypes E s b initCache tr).countP (fun t => decide (0 ≤ t)) := by
  obtain ⟨h1, h2, h3⟩ := counters_fold E s b tr initCache
  refine ⟨traceTypes_length E s b tr initCache, ?_, ?_, ?_, ?_⟩
  · exact traceTypes_forall E s b (fun c r => miss_type_trichotomy E _ _) tr initCache
  · simpa [run, initCache, initStats] using h2
  · simpa [run, initCache, initStats] using h3
  · simpa [run, initCache, initStats] using h1

/-- C5: the simulator decomposes an address as
`set_index = (A >> b) & ((1 << s) - 1)` and `tag = A >> (s + b)` (using the
mask `pow2 s - 1` that `set_global_values` installs); this is a total pure
function, and `s = 0` always yields set index 0. -/
theorem address_decomposition (s b : Nat) (op : Char) (addr : Nat) :
    parsing_line s b ((pow2 (s : Int)).toNat - 1) op addr
      = { is_load := op != 'S',
          tag := addr >>> (s + b),
          set_num := (addr >>> b) &&& (2 ^ s - 1) } ∧
    (s = 0 →
      (parsing_line s b ((pow2 (s : Int)).toNat - 1) op addr).set_num = 0) := by
  have hm : (pow2 (s : Int)).toNat = 2 ^ s := pow2_toNat s
  constructor
  · simp only [parsing_line, hm]
    rw [Nat.add_comm s b, Nat.shiftRight_add]
  · intro hs
    subst hs
    have hm0 : (pow2 ((0 : Nat) : Int)).toNat - 1 = 0 := by
      rw [pow2_toNat]
      simp
    simp only [parsing_line]
    rw [hm0]
    exact Nat.and_zero _

theorem address_decomposition_witness :
    (parsing_line 0 4 ((pow2 ((0 : Nat) : Int)).toNat - 1) 'L' 4660).set_num = 0 :=
  (address_decomposition 0 4 'L' 4660).2 rfl

/-- C6 (amended): provided the configured associativity satisfies `E ≥ 1`,
no set ever holds more than `E` lines at any point of trace processing.
(The unamended claim fails for `E = 0`, see the counterexample.) -/
theorem occupancy_bounded (E : Int) (s b : Nat) (hE : 1 ≤ E)
    (tr : List (Char × Nat)) (j : Nat) :
    (((run E s b tr).sets j).length : Int) ≤ E := by
  have key : ∀ j', (((tr.foldl (doAccess E s b) initCache).sets j').length : Int) ≤ E := by
    refine foldl_invariant (P := fun c => ∀ j', (((c.sets j').length : Int) ≤ E))
      E s b ?_ tr initCache ?_
    · intro c r h j'
      rw [doAccess_sets_def]
      by_cases hj : j' = (parsing_line s b (2 ^ s - 1) r.1 r.2).set_num
      · rw [hj, Function.update_same]
        exact access_length_le hE (h _)
      · rw [Function.update_noteq hj]
        exact h j'
    · intro j'
      simp [initCache]
      omega
  exact key j

theorem occupancy_bounded_witness :
    (1 : Int) ≤ 1 ∧ (((run 1 0 0 [('L', 0), ('L', 1)]).sets 0).length : Int) ≤ 1 :=
  ⟨by norm_num, occupancy_bounded 1 0 0 (by norm_num) [('L', 0), ('L', 1)] 0⟩

/-- C6 counterexample: with the accepted configuration `E = 0`, after two
loads with distinct tags in set 0 the set holds 2 lines, exceeding `E`. -/
theorem occupancy_bounded_cex :
    ¬ ((((run 0 0 0 [('L', 0), ('L', 1)]).sets 0).length : Int) ≤ 0) := by
  decide

/-- C7: at every point of trace processing, no two resident lines of any
set share a tag. -/
theorem tags_unique (E : Int) (s b : Nat) (tr : List (Char × Nat)) (j : Nat) :
    (((run E s b tr).sets j).map Line.tag).Nodup := by
  have key : ∀ j', (((tr.foldl (doAccess E s b) initCache).sets j').map Line.tag).Nodup := by
    refine foldl_invariant (P := fun c => ∀ j', ((c.sets j').map Line.tag).Nodup)
      E s b ?_ tr initCache ?_
    · intro c r h j'
      rw [doAccess_sets_def]
      by_cases hj : j' = (parsing_line s b (2 ^ s - 1) r.1 r.2).set_num
      · rw [hj, Function.update_same]
        exact access_tags_nodup (h _)
      · rw [Function.update_noteq hj]
        exact h j'
    · intro j'
      simp [initCache]
  exact key j

/-- C8 (amended): construction performs no validation: `set_global_values`
is total, accepts `s < 0`, `b < 0` and `E ≤ 0` unchanged, and always
produces positive `total_sets = 2^|s|` and `total_bytes = 2^|b|`
(`pow2` maps a negative argument `-k` to `2^k`); nothing aborts before
trace processing. -/
theorem construction_unvalidated (sA EA bA : Int) :
    set_global_values sA EA bA
      = { s := sA, E := EA, b := bA,
          total_sets := 2 ^ sA.natAbs, total_bytes := 2 ^ bA.natAbs,
          set_mask := 2 ^ sA.natAbs - 1 } ∧
    0 < (set_global_values sA EA bA).total_sets ∧
    0 < (set_global_values sA EA bA).total_bytes := by
  refine ⟨?_, ?_, ?_⟩
  · simp [set_global_values, pow2_natAbs]
  · simpa [set_global_values] using pow2_pos sA
  · simpa [set_global_values] using pow2_pos bA

/-- C8 counterexample: the invalid configuration `E = 0` is accepted at
construction and the trace is processed (two accesses are counted as
misses), contradicting "fails at construction, aborting before any trace
processing". -/
theorem construction_accepts_invalid_cex :
    (set_global_values 0 0 0).E = 0 ∧
    (run 0 0 0 [('L', 0), ('L', 1)]).stats.misses = 2 :=
  ⟨rfl, by decide⟩

/-- C9 (amended): a trace record whose operation character is `'I'` is not
ignored: `parsing_line` treats every operation other than `'S'` as a load,
so an `'I'` record is processed exactly like an `'L'` record at the same
address. -/
theorem instruction_records_are_loads (E : Int) (s b : Nat) (c : Cache)
    (addr : Nat) :
    doAccess E s b c ('I', addr) = doAccess E s b c ('L', addr) := rfl

/-- C9 counterexample: processing a single `'I'` record changes the
statistics (a miss is recorded), so `'I'` records are not ignored. -/
theorem instruction_not_ignored_cex :
    ¬ ((run 1 0 0 [('I', 0)]).stats.misses = (run 1 0 0 []).stats.misses) := by
  decide

/-- C10: with the accepted associativity `E = 0` no access is ever
classified as a capacity miss, the eviction counter stays 0 on every trace,
and occupancy can exceed `E` (set 0 holds two lines after two cold
misses). -/
theorem zero_associativity_no_evictions (s b : Nat) (tr : List (Char × Nat)) :
    (run 0 s b tr).stats.evictions = 0 ∧
    (∀ t ∈ traceTypes 0 s b initCache tr, t ≠ -2) ∧
    ((run 0 0 0 [('L', 0), ('L', 1)]).sets 0).length = 2 := by
  have hne2 : ∀ (c : Cache) (r : Char × Nat), stepType 0 s b c r ≠ -2 := by
    intro c r hstep
    simp only [stepType] at hstep
    obtain ⟨hne, -, hlen⟩ := miss_type_neg2_iff.mp hstep
    have hpos : 0 < ((c.sets (parsing_line s b (2 ^ s - 1) r.1 r.2).set_num)).length :=
      List.length_pos.mpr hne
    omega
  have hmem : ∀ t ∈ traceTypes 0 s b initCache tr, t ≠ -2 :=
    traceTypes_forall 0 s b hne2 tr initCache
  refine ⟨?_, hmem, by decide⟩
  obtain ⟨-, -, h3⟩ := counters_fold 0 s b tr initCache
  have hcnt : (traceTypes 0 s b initCache tr).countP (fun t => t == -2) = 0 :=
    List.countP_eq_zero.mpr (fun a ha => by simp [beq_iff_eq, hmem a ha])
  rw [hcnt] at h3
  simpa [run, initCache, initStats] using h3

end Csim
